import Mathlib

/-!
# Verification of the indexed-color bit packing/unpacking core (`bitmap/bit_data.rs`)

This file gives a shallow embedding of `BitData` and its operations
(`stream`, `from_bitmap`, `as_bytes`, `as_rgba`) and proves or refutes the
frozen claims about them.

Modelling conventions:
* Rust `u8` arithmetic is embedded as `Nat` with explicit truncation:
  wrapping addition is `(a + b) % 256`, and `u8` left shift is embedded with
  the release-build semantics of Rust's `<<` operator (the shift amount is
  masked to the bit width, the value truncated to 8 bits) — see `rshl`.
* Rust `u32`/`usize` counters are embedded as plain `Nat` (their overflow is
  unreachable for any input the claims are about).
* Fallible operations (`Option::unwrap`, `Vec` indexing, `%` by zero) are
  embedded in `Option`: a `none` result models a Rust panic.
* `BitDepth::get_step_counter`, `Rgba`, and `BitMap::get_all_unique_colors`
  are declared in modules of this repository that are not part of the core
  source file; they are modelled from the spec where noted.
-/

/-- An RGBA color value: four 8-bit channels, exact channel-wise equality.
Modelled from the spec (`rgba.rs` is outside the core source): §3 "Pixel". -/
structure Rgba where
  red : Nat
  green : Nat
  blue : Nat
  alpha : Nat
deriving DecidableEq, Repr

/-- Modelled from the spec: the fallback palette entry is "black, i.e.,
zero-value RGBA" (§4.1), so `Rgba::rgb(0,0,0)` denotes the zero RGBA value. -/
def Rgba.rgb (r g b : Nat) : Rgba :=
  ⟨r, g, b, 0⟩

/-- Bit depth of the image: one of 1, 4, 8 bits per pixel.
Modelled from the spec (`bit_depth.rs` is outside the core source): §3. -/
inductive BitDepth where
  | one
  | four
  | eight
deriving DecidableEq, Repr

/-- Modelled from the spec: the "step" is the number of bits per pixel index,
1, 4 or 8 according to the bit depth (§3, §4.2 step 1). -/
def BitDepth.stepCounter : BitDepth → Nat
  | .one => 1
  | .four => 4
  | .eight => 8

/-- The only part of the file header `BitData::stream` reads: the byte offset
where pixel data begins. Modelled from usage in `bit_data.rs` and the spec §1. -/
structure FileHeader where
  off_bits : Nat
deriving DecidableEq, Repr

def FileHeader.get_off_bits (f : FileHeader) : Nat :=
  f.off_bits

/-- The only parts of the info header `BitData::stream` reads: image width and
height. Modelled from usage in `bit_data.rs` and the spec §1. -/
structure InfoHeader where
  width : Nat
  height : Nat
deriving DecidableEq, Repr

def InfoHeader.get_width (i : InfoHeader) : Nat :=
  i.width

def InfoHeader.get_height (i : InfoHeader) : Nat :=
  i.height

/-- The palette table read from a file. Modelled from usage in `bit_data.rs`:
only `clone_colors` is consumed. -/
structure RgbQuad where
  colors : List Rgba
deriving DecidableEq, Repr

def RgbQuad.clone_colors (q : RgbQuad) : List Rgba :=
  q.colors

/-- `BitData` (src/bitmap/bit_data.rs lines 13-26): binary pixel data of a
bitmap with bit depth 1, 4 or 8, together with the palette it indexes into. -/
structure BitData where
  width : Nat
  height : Nat
  colors : List Rgba
  bytes : List Nat
  bit_depth : BitDepth
deriving DecidableEq, Repr

/-- Rust `u8` left shift `b << s` with release-build semantics: the shift
amount is masked to the bit width (`s % 8`) and the result truncated to 8
bits. -/
def rshl (b s : Nat) : Nat :=
  (b <<< (s % 8)) % 256

/-- `Vec::iter().position(|&c| c == pixel)` (bit_data.rs line 85): index of the
first occurrence of `p` in `l`, or `none`. -/
def position (l : List Rgba) (p : Rgba) : Option Nat :=
  match l with
  | [] => none
  | c :: cs => if c = p then some 0 else (position cs p).map (· + 1)

/-- Modelled from the spec: `BitMap::get_all_unique_colors` (declared in
`image.rs`, outside the core source) returns "exactly the distinct colors
present, in first-occurrence order" (§4.1). -/
def uniqueColors (pixels : List Rgba) : List Rgba :=
  pixels.foldl (fun acc p => if p ∈ acc then acc else acc ++ [p]) []

/-- `bit_padding` as computed in `from_bitmap` (bit_data.rs lines 67-70):
`match bit_width % 8 { 0 => 0, _ => 8 - (bit_width % 8) }`. -/
def packBitPadding (width step : Nat) : Nat :=
  if width * step % 8 = 0 then 0 else 8 - width * step % 8

/-- `byte_width` as computed in `from_bitmap` (bit_data.rs line 71). -/
def packByteWidth (width step : Nat) : Nat :=
  (width * step + packBitPadding width step) / 8

/-- `byte_padding` as computed in `from_bitmap` (bit_data.rs lines 72-75). -/
def packBytePadding (width step : Nat) : Nat :=
  if packByteWidth width step % 4 = 0 then 0 else 4 - packByteWidth width step % 4

/-- The loop state of `from_bitmap` (bit_data.rs lines 80-82): the emitted
bytes, the accumulator `byte`, and the `counter` and `shift` variables. -/
structure PackSt where
  bytes : List Nat
  byte : Nat
  counter : Nat
  shift : Nat
deriving DecidableEq, Repr

/-- The pixel loop of `from_bitmap` (bit_data.rs lines 83-110).  `i` is the
loop index.  `none` models a panic: the `unwrap` on a failed palette lookup
(line 85), or `counter % width` with zero width (line 98). -/
def packLoop (palette : List Rgba) (width step bitWidth bitPad bytePad : Nat) :
    List Rgba → Nat → PackSt → Option PackSt
  | [], _, st => some st
  | p :: ps, i, st =>
    match position palette p with
    | none => none
    | some posIdx =>
      if width = 0 then none
      else
        let colorIndex := posIdx % 256
        let counter := st.counter + step
        let shift := counter % 8
        let byte := (rshl st.byte step + colorIndex) % 256
        let st1 : PackSt :=
          if shift = 0 ∧ i ≠ 0 ∧ 8 ≤ bitWidth then
            ⟨st.bytes ++ [byte], 0, counter, shift⟩
          else
            ⟨st.bytes, byte, counter, shift⟩
        let st2 : PackSt :=
          if counter % width = 0 ∧ i ≠ 0 then
            if bitPad ≠ 0 then
              ⟨st1.bytes ++ [rshl st1.byte bitPad] ++ List.replicate bytePad 0, 0, 0, shift⟩
            else
              ⟨st1.bytes ++ List.replicate bytePad 0, st1.byte, counter, shift⟩
          else st1
        packLoop palette width step bitWidth bitPad bytePad ps (i + 1) st2

/-- `BitData::from_bitmap` (bit_data.rs lines 57-128).  The bitmap argument is
its pixel list, width and height; `none` models a panic. -/
def fromBitmap (pixels : List Rgba) (width height : Nat) (bit_depth : BitDepth) :
    Option BitData :=
  let unique_colors := uniqueColors pixels ++ [Rgba.rgb 0 0 0]
  let step := bit_depth.stepCounter
  let bitWidth := width * step
  let bitPad := packBitPadding width step
  let bytePad := packBytePadding width step
  match packLoop unique_colors width step bitWidth bitPad bytePad pixels 0 ⟨[], 0, 0, 0⟩ with
  | none => none
  | some st =>
    let bytes := if st.shift ≠ 0 then st.bytes ++ [rshl st.byte (8 - st.shift)] else st.bytes
    let bytes := if bytes.length % 4 ≠ 0 then bytes ++ List.replicate bytePad 0 else bytes
    some ⟨width, height, unique_colors, bytes, bit_depth⟩

/-- `BitData::stream` (bit_data.rs lines 32-52): the byte-copying loop
`for index in offset..bit_stream.len() { bytes.push(bit_stream[index]) }`. -/
def streamBytes (bitStream : List Nat) (offset : Nat) : List Nat :=
  if offset < bitStream.length then
    bitStream.getD offset 0 :: streamBytes bitStream (offset + 1)
  else []
termination_by bitStream.length - offset

/-- `BitData::stream` (bit_data.rs lines 32-52). -/
def BitData.stream (bit_stream : List Nat) (file : FileHeader) (info : InfoHeader)
    (bit_depth : BitDepth) (colors : RgbQuad) : BitData :=
  let offset := file.get_off_bits
  { width := info.get_width
    height := info.get_height
    bit_depth := bit_depth
    colors := colors.clone_colors
    bytes := streamBytes bit_stream offset }

/-- `BitData::as_bytes` (bit_data.rs lines 133-135). -/
def BitData.as_bytes (d : BitData) : List Nat :=
  d.bytes

/-- `bit_padding` as computed in `as_rgba` (bit_data.rs lines 149-152): note
the `else` arm reads `8 - (self.width % 8)`, with `width` in pixels. -/
def decodeBitPadding (width step : Nat) : Nat :=
  if width * step % 8 = 0 then 0 else 8 - width % 8

/-- `byte_width` as computed in `as_rgba` (bit_data.rs line 153). -/
def decodeByteWidth (width step : Nat) : Nat :=
  (width * step + decodeBitPadding width step) / 8

/-- `byte_padding` as computed in `as_rgba` (bit_data.rs lines 154-157). -/
def decodeBytePadding (width step : Nat) : Nat :=
  if decodeByteWidth width step % 4 = 0 then 0 else 4 - decodeByteWidth width step % 4

/-- The innermost bit loop of `as_rgba` (bit_data.rs lines 184-189):
`for bit_index in (starting_bit..ending_bit).rev() { index = (index << 1) +
((byte >> bit_index) & 1) }`, folded over the already reversed index list. -/
def readBitsAux (byte : Nat) : List Nat → Nat → Nat
  | [], index => index
  | b :: bs, index => readBitsAux byte bs (index <<< 1 + (byte >>> b) % 2)

/-- The step-bit group value read from `byte` at `starting_bit` (lines 182-189). -/
def readBits (byte startingBit step : Nat) : Nat :=
  readBitsAux byte ((List.range' startingBit step).reverse) 0

/-- The `byte_indexes` iterator `(0..(8 / step)).rev()` (bit_data.rs line 168). -/
def groupList (step : Nat) : List Nat :=
  (List.range (8 / step)).reverse

/-- The inner loop of `as_rgba` over the bit groups of one byte (bit_data.rs
lines 168-191), including the row-boundary `break`.  `none` models a panic:
out-of-bounds `self.colors[index]` (line 190), or `pixels.len() % self.width`
with zero width (line 172). -/
def groupLoop (colors : List Rgba) (width step byte : Nat) :
    List Nat → Bool → List Rgba → Option (List Rgba)
  | [], _, pixels => some pixels
  | g :: gs, sra, pixels =>
    if width = 0 then none
    else if pixels.length % width = 0 ∧ pixels.length ≠ 0 ∧ sra = false then
      some pixels
    else
      -- starting_bit = byte_indexes * step, index = the step-bit group there
      match colors.get? (readBits byte (g * step) step) with
      | none => none
      | some c => groupLoop colors width step byte gs sra (pixels ++ [c])

/-- The outer byte loop of `as_rgba` (bit_data.rs lines 160-202), carrying
`byte_padding_counter` and `start_reading_again`. -/
def byteLoop (colors : List Rgba) (width step bytePad : Nat) :
    List Nat → Nat → Bool → List Rgba → Option (List Rgba)
  | [], _, _, pixels => some pixels
  | b :: bs, bpc, sra, pixels =>
    if 0 < bpc then
      byteLoop colors width step bytePad bs (bpc - 1) sra pixels
    else
      match groupLoop colors width step b (groupList step) sra pixels with
      | none => none
      | some pixels1 =>
        -- after the inner loop, `start_reading_again` is always reset to false
        if pixels1.length % width = 0 ∧ pixels1.length ≠ 0 then
          byteLoop colors width step bytePad bs bytePad true pixels1
        else
          byteLoop colors width step bytePad bs 0 false pixels1

/-- `BitData::as_rgba` (bit_data.rs lines 140-204).  `none` models a panic. -/
def BitData.as_rgba (d : BitData) : Option (List Rgba) :=
  let step := d.bit_depth.stepCounter
  let bytePad := decodeBytePadding d.width step
  byteLoop d.colors d.width step bytePad d.bytes 0 false []

/-- The error kind for a failed palette lookup. Modelled from the spec §4.1,
§7 (the resolver lives outside the core source file). -/
inductive LookupError where
  | lookupError
deriving DecidableEq, Repr

/-- Modelled from the spec §4.1: "Given a color and a palette, return its
index; fails with a LookupError if the color is not present". -/
def resolve (palette : List Rgba) (c : Rgba) : Except LookupError Nat :=
  match position palette c with
  | some i => .ok i
  | none => .error .lookupError

/-! Helper definitions used to state the correct fragment of the pack/unpack
transform (bit depth 1, width a multiple of 8). -/

theorem streamBytes_eq_drop (l : List Nat) (off : Nat) :
    streamBytes l off = l.drop off := by
  generalize hn : l.length - off = n
  induction n generalizing off with
  | zero =>
    rw [streamBytes, if_neg (by omega), List.drop_eq_nil_of_le (by omega)]
  | succ k ih =>
    have hlt : off < l.length := by omega
    rw [streamBytes, if_pos hlt, ih (off + 1) (by omega),
      List.drop_eq_getElem_cons hlt, List.getD_eq_getElem l 0 hlt]

theorem position_lt_length {l : List Rgba} {p : Rgba} {i : Nat}
    (h : position l p = some i) : i < l.length := by
  induction l generalizing i with
  | nil => simp [position] at h
  | cons c cs ih =>
    rw [position] at h
    by_cases hc : c = p
    · rw [if_pos hc] at h
      simp at h ⊢
      omega
    · rw [if_neg hc] at h
      rcases hj : position cs p with _ | j
      · rw [hj] at h
        simp at h
      · rw [hj] at h
        simp at h
        have := ih hj
        simp
        omega

theorem position_get {l : List Rgba} {p : Rgba} {i : Nat}
    (h : position l p = some i) : l.get? i = some p := by
  induction l generalizing i with
  | nil => simp [position] at h
  | cons c cs ih =>
    rw [position] at h
    by_cases hc : c = p
    · rw [if_pos hc] at h
      simp at h
      subst h
      simp [hc]
    · rw [if_neg hc] at h
      rcases hj : position cs p with _ | j
      · rw [hj] at h
        simp at h
      · rw [hj] at h
        simp at h
        subst h
        simpa using ih hj

theorem position_eq_none_of_not_mem {l : List Rgba} {p : Rgba}
    (h : p ∉ l) : position l p = none := by
  induction l with
  | nil => simp [position]
  | cons c cs ih =>
    rw [position, if_neg (by simp at h; tauto)]
    rw [ih (by simp at h; tauto)]
    rfl

theorem position_append_left {l₁ : List Rgba} {p : Rgba} (l₂ : List Rgba)
    (h : p ∈ l₁) : ∃ i, position (l₁ ++ l₂) p = some i ∧ i < l₁.length := by
  induction l₁ with
  | nil => simp at h
  | cons c cs ih =>
    by_cases hc : c = p
    · exact ⟨0, by simp [position, hc], by simp⟩
    · have hmem : p ∈ cs := by
        rcases List.mem_cons.mp h with h1 | h1
        · exact absurd h1.symm hc
        · exact h1
      obtain ⟨i, hi, hlt⟩ := ih hmem
      exact ⟨i + 1, by simp [position, hc, hi], by simp; omega⟩

theorem mem_foldl_uniqueAux {p : Rgba} :
    ∀ (l : List Rgba) (acc : List Rgba), p ∈ acc ∨ p ∈ l →
      p ∈ l.foldl (fun acc q => if q ∈ acc then acc else acc ++ [q]) acc := by
  intro l
  induction l with
  | nil =>
    intro acc h
    simpa using h
  | cons a l ih =>
    intro acc h
    rw [List.foldl_cons]
    apply ih
    by_cases ha : a ∈ acc
    · rw [if_pos ha]
      rcases h with h | h
      · exact Or.inl h
      · rcases List.mem_cons.mp h with h1 | h1
        · exact Or.inl (h1 ▸ ha)
        · exact Or.inr h1
    · rw [if_neg ha]
      rcases h with h | h
      · exact Or.inl (by simp [h])
      · rcases List.mem_cons.mp h with h1 | h1
        · exact Or.inl (by simp [h1])
        · exact Or.inr h1

theorem mem_uniqueColors {p : Rgba} {pixels : List Rgba} (h : p ∈ pixels) :
    p ∈ uniqueColors pixels :=
  mem_foldl_uniqueAux pixels [] (Or.inr h)

theorem packLoop_isSome (palette : List Rgba) (width step bitWidth bitPad bytePad : Nat)
    (hw : width ≠ 0) :
    ∀ (ps : List Rgba) (i : Nat) (st : PackSt),
      (∀ p ∈ ps, ∃ j, position palette p = some j) →
      ∃ st2, packLoop palette width step bitWidth bitPad bytePad ps i st = some st2 := by
  intro ps
  induction ps with
  | nil => exact fun i st _ => ⟨st, rfl⟩
  | cons p ps ih =>
    intro i st hpos
    obtain ⟨j, hj⟩ := hpos p (by simp)
    rw [packLoop, hj]
    simp only [if_neg hw]
    exact ih (i + 1) _ (fun q hq => hpos q (by simp [hq]))

theorem position_isSome_of_mem {l : List Rgba} {p : Rgba} (h : p ∈ l) :
    ∃ i, position l p = some i := by
  induction l with
  | nil => simp at h
  | cons c cs ih =>
    by_cases hc : c = p
    · exact ⟨0, by simp [position, hc]⟩
    · have hmem : p ∈ cs := by
        rcases List.mem_cons.mp h with h1 | h1
        · exact absurd h1.symm hc
        · exact h1
      obtain ⟨i, hi⟩ := ih hmem
      exact ⟨i + 1, by simp [position, hc, hi]⟩

theorem resolve_mem {l : List Rgba} {c : Rgba} (h : c ∈ l) :
    ∃ i, resolve l c = .ok i ∧ i < l.length ∧ l.get? i = some c := by
  obtain ⟨i, hi⟩ := position_isSome_of_mem h
  exact ⟨i, by simp [resolve, hi], position_lt_length hi, position_get hi⟩

theorem resolve_not_mem {l : List Rgba} {c : Rgba} (h : c ∉ l) :
    resolve l c = .error .lookupError := by
  simp [resolve, position_eq_none_of_not_mem h]

theorem groupList_length (step : Nat) : (groupList step).length = 8 / step := by
  simp [groupList]

theorem readBitsAux_lt (byte : Nat) : ∀ (bits : List Nat) (acc : Nat),
    readBitsAux byte bits acc < (acc + 1) * 2 ^ bits.length := by
  intro bits
  induction bits with
  | nil => intro acc; simp [readBitsAux]
  | cons b bs ih =>
    intro acc
    rw [readBitsAux]
    apply lt_of_lt_of_le (ih (acc <<< 1 + (byte >>> b) % 2))
    have hm : (byte >>> b) % 2 ≤ 1 := by omega
    have hsl : acc <<< 1 = acc * 2 := by rw [Nat.shiftLeft_eq, pow_one]
    rw [List.length_cons, pow_succ]
    calc (acc <<< 1 + (byte >>> b) % 2 + 1) * 2 ^ bs.length
        ≤ ((acc + 1) * 2) * 2 ^ bs.length := Nat.mul_le_mul_right _ (by rw [hsl]; omega)
      _ = (acc + 1) * (2 ^ bs.length * 2) := by ring

theorem readBits_lt (byte s step : Nat) : readBits byte s step < 2 ^ step := by
  have h := readBitsAux_lt byte ((List.range' s step).reverse) 0
  simpa [readBits, List.length_reverse, List.length_range'] using h

theorem groupLoop_bound (colors : List Rgba) (width step byte : Nat)
    (hw : width ≠ 0) (hcol : 2 ^ step ≤ colors.length) :
    ∀ (gs : List Nat) (sra : Bool) (pixels : List Rgba),
      ∃ l, groupLoop colors width step byte gs sra pixels = some l ∧
        pixels.length ≤ l.length ∧ l.length ≤ pixels.length + gs.length := by
  intro gs
  induction gs with
  | nil => intro sra pixels; exact ⟨pixels, rfl, le_refl _, by simp⟩
  | cons g gs ih =>
    intro sra pixels
    rw [groupLoop, if_neg hw]
    by_cases hbr : pixels.length % width = 0 ∧ pixels.length ≠ 0 ∧ sra = false
    · rw [if_pos hbr]
      exact ⟨pixels, rfl, le_refl _, by simp⟩
    · rw [if_neg hbr]
      have hidx : readBits byte (g * step) step < colors.length :=
        lt_of_lt_of_le (readBits_lt byte (g * step) step) hcol
      simp only [List.get?_eq_get hidx]
      obtain ⟨l, hl, h1, h2⟩ := ih sra (pixels ++ [colors.get ⟨_, hidx⟩])
      refine ⟨l, hl, ?_, ?_⟩
      · simp at h1
        omega
      · simp at h1 h2 ⊢
        omega

theorem byteLoop_bound (colors : List Rgba) (width step bytePad : Nat)
    (hw : width ≠ 0) (hcol : 2 ^ step ≤ colors.length) :
    ∀ (bytes : List Nat) (bpc : Nat) (sra : Bool) (pixels : List Rgba),
      ∃ l, byteLoop colors width step bytePad bytes bpc sra pixels = some l ∧
        l.length ≤ pixels.length + bytes.length * (8 / step) := by
  intro bytes
  induction bytes with
  | nil => intro bpc sra pixels; exact ⟨pixels, rfl, by simp⟩
  | cons b bs ih =>
    intro bpc sra pixels
    obtain ⟨q, hq⟩ : ∃ q, 8 / step = q := ⟨_, rfl⟩
    rw [byteLoop]
    by_cases hbpc : 0 < bpc
    · rw [if_pos hbpc]
      obtain ⟨l, hl, hlen⟩ := ih (bpc - 1) sra pixels
      rw [hq] at hlen
      refine ⟨l, hl, ?_⟩
      rw [List.length_cons, Nat.succ_mul, hq]
      omega
    · rw [if_neg hbpc]
      obtain ⟨p1, hp1, hge, hle⟩ := groupLoop_bound colors width step b hw hcol (groupList step) sra pixels
      rw [groupList_length, hq] at hle
      simp only [hp1]
      by_cases hrow : p1.length % width = 0 ∧ p1.length ≠ 0
      · rw [if_pos hrow]
        obtain ⟨l, hl, hlen⟩ := ih bytePad true p1
        rw [hq] at hlen
        refine ⟨l, hl, ?_⟩
        rw [List.length_cons, Nat.succ_mul, hq]
        omega
      · rw [if_neg hrow]
        obtain ⟨l, hl, hlen⟩ := ih 0 false p1
        rw [hq] at hlen
        refine ⟨l, hl, ?_⟩
        rw [List.length_cons, Nat.succ_mul, hq]
        omega

/-! ## Claim theorems: C3, C9, C10, C4 and the counterexamples -/

/-- C3: in the pack path, `bit_padding = (8 - (width*step) mod 8) mod 8` and
`byte_padding = (4 - byte_width mod 4) mod 4` for every width and every depth;
in particular depth 1/width 8 gives bit padding 0, depth 1/width 3 gives bit
padding 5, and depth 8/width 10 gives byte width 10 and byte padding 2. -/
theorem claim_C3_pack_padding (w : Nat) (d : BitDepth) :
    packBitPadding w d.stepCounter = (8 - w * d.stepCounter % 8) % 8 ∧
    packBytePadding w d.stepCounter = (4 - packByteWidth w d.stepCounter % 4) % 4 ∧
    packBitPadding 8 BitDepth.one.stepCounter = 0 ∧
    packBitPadding 3 BitDepth.one.stepCounter = 5 ∧
    packByteWidth 10 BitDepth.eight.stepCounter = 10 ∧
    packBytePadding 10 BitDepth.eight.stepCounter = 2 := by
  refine ⟨?_, ?_, by decide, by decide, by decide, by decide⟩
  · unfold packBitPadding
    split <;> omega
  · unfold packBytePadding
    split <;> omega

/-- C9: at width 5 and depth 4 the decode path computes `bit_padding = 3`
(from `8 - width % 8`) while the pack path and the spec formula
`(8 - bits_per_row mod 8) mod 8` give 4: the two paths disagree. -/
theorem claim_C9_eval :
    decodeBitPadding 5 BitDepth.four.stepCounter = 3 ∧
    packBitPadding 5 BitDepth.four.stepCounter = 4 ∧
    (8 - 5 * BitDepth.four.stepCounter % 8) % 8 = 4 ∧
    decodeBitPadding 5 BitDepth.four.stepCounter ≠ packBitPadding 5 BitDepth.four.stepCounter := by
  decide

/-- C10: `stream` stores exactly the suffix of the input starting at the
header's `off_bits` offset, `as_bytes` returns those bytes, and an offset at
or past the end of the input yields an empty buffer (no panic). -/
theorem claim_C10_stream (bs : List Nat) (file : FileHeader) (info : InfoHeader)
    (d : BitDepth) (q : RgbQuad) :
    (BitData.stream bs file info d q).bytes = bs.drop file.get_off_bits ∧
    (BitData.stream bs file info d q).as_bytes = bs.drop file.get_off_bits ∧
    (bs.length ≤ file.get_off_bits → (BitData.stream bs file info d q).bytes = []) := by
  refine ⟨streamBytes_eq_drop bs _, streamBytes_eq_drop bs _, fun h => ?_⟩
  rw [show (BitData.stream bs file info d q).bytes = streamBytes bs file.get_off_bits from rfl,
    streamBytes_eq_drop bs _]
  exact List.drop_eq_nil_of_le h

/-- Witness for C10 at a concrete input whose offset exceeds the stream. -/
theorem claim_C10_stream_witness :
    (BitData.stream [7, 9] ⟨5⟩ ⟨2, 1⟩ .one ⟨[]⟩).bytes = [] ∧
    (BitData.stream [7, 9] ⟨5⟩ ⟨2, 1⟩ .one ⟨[]⟩).as_bytes = List.drop 5 [7, 9] :=
  ⟨(claim_C10_stream [7, 9] ⟨5⟩ ⟨2, 1⟩ .one ⟨[]⟩).2.2 (by decide),
    (claim_C10_stream [7, 9] ⟨5⟩ ⟨2, 1⟩ .one ⟨[]⟩).2.1⟩

/-- C4: packing the 1x1 depth-8 black image yields the palette
[black, black(fallback)] but the EMPTY byte stream, not [0,0,0,0] as the
claim states; unpacking the produced data yields [] instead of [black]. -/
theorem claim_C4_eval :
    (fromBitmap [Rgba.rgb 0 0 0] 1 1 .eight).map (fun bd => (bd.colors, bd.bytes)) =
      some ([Rgba.rgb 0 0 0, Rgba.rgb 0 0 0], []) ∧
    ((fromBitmap [Rgba.rgb 0 0 0] 1 1 .eight).bind BitData.as_rgba) = some [] ∧
    ([] : List Nat) ≠ [0, 0, 0, 0] := by
  decide

/-- C6 counterexample: decoding an empty stream for an 8x1 depth-1 image (too
short for 8 pixels) returns the pixel buffer [] – no TruncatedStreamError is
signalled and a (partial) buffer IS returned. -/
theorem claim_C6_cex :
    BitData.as_rgba ⟨8, 1, [Rgba.rgb 0 0 0], [], .one⟩ = some [] ∧
    (0 : Nat) < 8 * 1 := by
  decide

/-- C7 counterexample: a stream whose first byte holds palette index 1 with a
1-entry palette makes `as_rgba` hit an out-of-bounds `self.colors[index]`
(modelled as `none`, i.e. a panic), not a DecodeError value. -/
theorem claim_C7_cex :
    BitData.as_rgba ⟨1, 1, [Rgba.rgb 0 0 0], [1, 0, 0, 0], .eight⟩ = none ∧
    ([Rgba.rgb 0 0 0] : List Rgba).length ≤ readBits 1 0 8 := by
  decide

/-! ## C8: palette construction and lookup never panic -/

/-- C8: `from_bitmap` builds the palette as the distinct colors in
first-occurrence order plus exactly one appended fallback black entry, and
succeeds (the internal `unwrap` never panics); resolving any color present in
that palette yields a valid index, and resolving a missing color yields a
LookupError value, never a panic. -/
theorem claim_C8_palette (pixels : List Rgba) (width height : Nat) (d : BitDepth)
    (hlen : pixels.length = width * height) :
    ∃ bd, fromBitmap pixels width height d = some bd ∧
      bd.colors = uniqueColors pixels ++ [Rgba.rgb 0 0 0] ∧
      (∀ c ∈ bd.colors, ∃ i, resolve bd.colors c = .ok i ∧ i < bd.colors.length ∧
        bd.colors.get? i = some c) ∧
      (∀ c, c ∉ bd.colors → resolve bd.colors c = .error .lookupError) := by
  by_cases hpix : pixels = []
  · subst hpix
    exact ⟨_, rfl, rfl, fun c hc => resolve_mem hc, fun c hc => resolve_not_mem hc⟩
  · have hw : width ≠ 0 := by
      intro h
      apply hpix
      apply List.eq_nil_of_length_eq_zero
      rw [hlen, h, Nat.zero_mul]
    obtain ⟨st2, hst⟩ := packLoop_isSome (uniqueColors pixels ++ [Rgba.rgb 0 0 0]) width
      d.stepCounter (width * d.stepCounter) (packBitPadding width d.stepCounter)
      (packBytePadding width d.stepCounter) hw pixels 0 ⟨[], 0, 0, 0⟩
      (fun p hp => by
        obtain ⟨i, hi, _⟩ := position_append_left [Rgba.rgb 0 0 0] (mem_uniqueColors hp)
        exact ⟨i, hi⟩)
    simp only [fromBitmap, hst]
    exact ⟨_, rfl, rfl, fun c hc => resolve_mem hc, fun c hc => resolve_not_mem hc⟩

/-- Witness for C8 at a concrete one-pixel image. -/
theorem claim_C8_palette_witness :
    ∃ bd, fromBitmap [Rgba.rgb 9 9 9] 1 1 .four = some bd ∧
      bd.colors = uniqueColors [Rgba.rgb 9 9 9] ++ [Rgba.rgb 0 0 0] ∧
      (∀ c ∈ bd.colors, ∃ i, resolve bd.colors c = .ok i ∧ i < bd.colors.length ∧
        bd.colors.get? i = some c) ∧
      (∀ c, c ∉ bd.colors → resolve bd.colors c = .error .lookupError) :=
  claim_C8_palette [Rgba.rgb 9 9 9] 1 1 .four (by decide)

/-! ## C6 (amended) and C7 (amended) -/

/-- C6 amended: a byte stream too short to yield width x height pixels makes
`as_rgba` return a PARTIAL pixel buffer of fewer than width x height pixels
(given a palette covering every possible step-bit index value, so no lookup
panic intervenes); no TruncatedStreamError exists in the code. -/
theorem claim_C6_amended (bd : BitData)
    (hpal : 2 ^ bd.bit_depth.stepCounter ≤ bd.colors.length)
    (hshort : bd.bytes.length * (8 / bd.bit_depth.stepCounter) < bd.width * bd.height) :
    ∃ l, bd.as_rgba = some l ∧ l.length < bd.width * bd.height := by
  have hw : bd.width ≠ 0 := by
    intro h
    rw [h, Nat.zero_mul] at hshort
    omega
  obtain ⟨l, hl, hlen⟩ := byteLoop_bound bd.colors bd.width bd.bit_depth.stepCounter
    (decodeBytePadding bd.width bd.bit_depth.stepCounter) hw hpal bd.bytes 0 false []
  refine ⟨l, ?_, ?_⟩
  · unfold BitData.as_rgba
    exact hl
  · simp only [List.length_nil, Nat.zero_add] at hlen
    omega

/-- Witness for C6 amended: the empty stream of an 8x1 depth-1 image decodes
to a buffer of fewer than 8 pixels. -/
theorem claim_C6_amended_witness :
    ∃ l, BitData.as_rgba ⟨8, 1, [Rgba.rgb 0 0 0, Rgba.rgb 1 1 1], [], .one⟩ = some l ∧
      l.length < 8 * 1 :=
  claim_C6_amended ⟨8, 1, [Rgba.rgb 0 0 0, Rgba.rgb 1 1 1], [], .one⟩ (by decide) (by decide)

/-- C7 amended: when the first step-bit group of the stream holds a value at
or above the palette length, `as_rgba` hits the out-of-bounds palette read
`self.colors[index]` at that first pixel; the embedded result is `none`
(a panic), not a DecodeError value. -/
theorem claim_C7_amended (bd : BitData) (b : Nat) (rest : List Nat)
    (hbytes : bd.bytes = b :: rest) (hw : bd.width ≠ 0)
    (hidx : bd.colors.length ≤
      readBits b ((8 / bd.bit_depth.stepCounter - 1) * bd.bit_depth.stepCounter)
        bd.bit_depth.stepCounter) :
    bd.as_rgba = none := by
  obtain ⟨w, h, colors, bytes, depth⟩ := bd
  simp only at hbytes hidx hw
  subst hbytes
  unfold BitData.as_rgba
  simp only
  rw [byteLoop, if_neg (by omega : ¬ 0 < 0)]
  have hget : colors.get? (readBits b ((8 / depth.stepCounter - 1) * depth.stepCounter)
      depth.stepCounter) = none := List.get?_eq_none.mpr hidx
  cases depth with
  | one =>
    rw [show groupList (BitDepth.one.stepCounter) = [7, 6, 5, 4, 3, 2, 1, 0] from rfl]
    rw [groupLoop, if_neg hw, if_neg (by simp)]
    rw [show (7 : Nat) * BitDepth.one.stepCounter =
      (8 / BitDepth.one.stepCounter - 1) * BitDepth.one.stepCounter from rfl]
    simp only [hget]
  | four =>
    rw [show groupList (BitDepth.four.stepCounter) = [1, 0] from rfl]
    rw [groupLoop, if_neg hw, if_neg (by simp)]
    rw [show (1 : Nat) * BitDepth.four.stepCounter =
      (8 / BitDepth.four.stepCounter - 1) * BitDepth.four.stepCounter from rfl]
    simp only [hget]
  | eight =>
    rw [show groupList (BitDepth.eight.stepCounter) = [0] from rfl]
    rw [groupLoop, if_neg hw, if_neg (by simp)]
    rw [show (0 : Nat) * BitDepth.eight.stepCounter =
      (8 / BitDepth.eight.stepCounter - 1) * BitDepth.eight.stepCounter from rfl]
    simp only [hget]

/-- Witness for C7 amended: an empty palette with a nonempty stream. -/
theorem claim_C7_amended_witness :
    BitData.as_rgba ⟨1, 1, [], [0], .one⟩ = none :=
  claim_C7_amended ⟨1, 1, [], [0], .one⟩ 0 [] rfl (by decide) (by decide)

/-! ## The correct regime: bit depth 1, width a positive multiple of 8.

In this regime `counter` counts both bits and pixels, `bit_padding = 0`, and
row boundaries coincide with byte boundaries, so `from_bitmap` and `as_rgba`
are exact inverses. The following development proves that. -/

